import Mathlib

/-!
Verification of the task-design / GLM estimation pipeline of the neu502b-lab
notebooks, against its natural-language specification.  Code cells of the
homework notebook are shallowly embedded over `ℚ`; blank fill-in cells that
the spec describes are modelled from the spec and marked as such in their
doc comments.
-/

/-- Embeds `np.linspace(start, stop, num)` as used by the detrending cell.
For `num = 1` numpy returns `[start]` (the step is never applied); for
`num ≥ 2` the grid is `start + i·(stop−start)/(num−1)`, ending exactly at
`stop`. -/
def linspace (start stop : ℚ) (num : ℕ) : List ℚ :=
  if num ≤ 1 then (List.range num).map (fun _ => start)
  else (List.range num).map (fun i : ℕ => start + (i : ℚ) * (stop - start) / ((num : ℚ) - 1))

/-- Embeds `scipy.special.eval_legendre n x`: the Legendre polynomial of
degree `n` at `x`, via the three-term recurrence
`(n+2)·P_{n+2} = (2n+3)·x·P_{n+1} − (n+1)·P_n`. -/
def eval_legendre : ℕ → ℚ → ℚ
  | 0, _ => 1
  | 1, x => x
  | n + 2, x =>
      ((2 * (n : ℚ) + 3) * x * eval_legendre (n + 1) x
        - ((n : ℚ) + 1) * eval_legendre n x) / ((n : ℚ) + 2)

/-- Embeds the polynomial-detrending cell:
`x_grid = np.linspace(-1, 1, n_trs)`, then
`for n in np.arange(degree): polys.append(eval_legendre(n, x_grid))`,
column-stacked.  The matrix is represented as its list of columns.
Note the loop runs `n = 0, …, degree − 1` (`np.arange(degree)`). -/
def polys (n_trs degree : ℕ) : List (List ℚ) :=
  (List.range degree).map (fun n => (linspace (-1) 1 n_trs).map (eval_legendre n))

/-- Embeds the experiment-parameter cell: the 8 stimulus categories. -/
def categories : List String :=
  ["face", "cat", "shoe", "scissors", "bottle", "chair", "house", "scrambledpix"]

/-- Embeds `n_categories = len(categories)`. -/
def n_categories : ℕ := categories.length

/-- Embeds `n_trs = 1452`. -/
def n_trs : ℕ := 1452

/-- Embeds `n_runs = 12`. -/
def n_runs : ℕ := 12

/-- Embeds `run_trs = 121`. -/
def run_trs : ℕ := 121

/-- Embeds one iteration of the boxcar loop:
`regressor = np.zeros(run_trs); regressor[np.where(labels == category)] = 1`,
where `labels` is the label sequence already restricted to one run.  Indices
of `labels` beyond `run_trs` are never written (with the experiment's data
both lengths are `run_trs`). -/
def boxcarColumn (labels : List String) (runTrs : ℕ) (category : String) : List ℚ :=
  (List.range runTrs).map (fun t =>
    match labels.get? t with
    | some l => if l = category then 1 else 0
    | none => 0)

/-- Embeds the boxcar loop over all categories (`np.column_stack`), as the
list of category columns. -/
def boxcars (labels : List String) (cats : List String) (runTrs : ℕ) : List (List ℚ) :=
  cats.map (boxcarColumn labels runTrs)

/-- Embeds the boolean-mask selection `stimuli[runs == 0]`. -/
def restrictRun0 (stimuli : List String) (runs : List ℤ) : List String :=
  ((stimuli.zip runs).filter (fun p => p.2 == 0)).map Prod.fst

set_option linter.unusedVariables false in
/-- Embeds the first-run boxcar cell.  The source sets `run_id = 0` but the
selection mask uses the literal `runs == 0`; the `run_id` argument is
received and unused, mirroring that. -/
def boxcarsFirstRun (run_id : ℤ) (stimuli : List String) (runs : List ℤ) : List (List ℚ) :=
  boxcars (restrictRun0 stimuli runs) categories run_trs

/-- Sum across all boxcar columns at a single timepoint `t`. -/
def boxcarSum (labels : List String) (cats : List String) (runTrs t : ℕ) : ℚ :=
  ((boxcars labels cats runTrs).map (fun col => col.getD t 0)).sum

/-- Pointwise sum of two equal-length numeric sequences (`b1 + b2`). -/
def vecAdd (u v : List ℚ) : List ℚ := List.zipWith (fun x y => x + y) u v

/-- Modelled from the spec: the HRF-convolution cell ("Convolve first-run
boxcar time series with HRF") is left blank in the notebook; §4.3 specifies
full linear (causal) convolution truncated to the length of the input
boxcar, i.e. entry `n` is `∑_{k ≤ n} x_k · h_{n−k}`. -/
def convolve (x h : List ℚ) : List ℚ :=
  (List.range x.length).map (fun n =>
    ((List.range (n + 1)).map (fun k => x.getD k 0 * h.getD (n - k) 0)).sum)

/-- Modelled from the spec: the design-matrix stacking cells ("Loop through
runs, apply HRF, and re-stack" and "Stack detrending variables alongside
category regressors") are left blank in the notebook; §4.4 specifies, per
category, vertically stacking the per-run convolved boxcars in run order,
then horizontally appending the Polynomial Detrender columns (`polys`, the
notebook's own detrending cell).  Represented as the list of columns:
interest columns first, then confound columns. -/
def designMatrix (stimuliRuns : List (List String)) (cats : List String)
    (runTrs : ℕ) (hrf : List ℚ) (nTrs degree : ℕ) : List (List ℚ) :=
  cats.map (fun c =>
      (stimuliRuns.map (fun labs => convolve (boxcarColumn labs runTrs c) hrf)).flatten)
    ++ polys nTrs degree

/-- Modelled from the spec: the error taxonomy of §7 for the GLM pipeline. -/
inductive GLMError where
  | InvalidInput
  | ShapeMismatch
  | RankDeficiency
deriving DecidableEq

/-- Is every entry of the row zero? -/
def allZero : List ℚ → Bool
  | [] => true
  | x :: t => if x = 0 then allZero t else false

/-- Index of the leading (first) nonzero entry of a row; the row's length
when the row is zero. -/
def leadIdx : List ℚ → ℕ
  | [] => 0
  | x :: t => if x = 0 then leadIdx t + 1 else 0

/-- One elimination step: cancel the entry of `r` at the pivot position of
`b` by subtracting the appropriate multiple of `b`. -/
def elimAt (r b : List ℚ) : List ℚ :=
  List.zipWith (fun x y => x - r.getD (leadIdx b) 0 / b.getD (leadIdx b) 0 * y) r b

/-- Insert a row into a row-echelon basis by Gaussian elimination: repeatedly
cancel the row's leading entry against the basis row with the same pivot;
keep the row if it does not reduce to zero.  `fuel` bounds the iteration
(the leading index strictly increases, so `r.length + 1` suffices). -/
def insertRow : ℕ → List (List ℚ) → List ℚ → List (List ℚ)
  | 0, basis, _ => basis
  | fuel + 1, basis, r =>
    if allZero r then basis
    else
      match basis.find? (fun b => leadIdx b == leadIdx r) with
      | none => r :: basis
      | some b => insertRow fuel basis (elimAt r b)

/-- Modelled from the spec: the numerical rank of a matrix (list of rows),
as the size of a row-echelon basis obtained by Gaussian elimination;
§4.5 requires detecting when `X` is rank-deficient. -/
def rankQ (rows : List (List ℚ)) : ℕ :=
  (rows.foldl (fun basis r => insertRow (r.length + 1) basis r) []).length

/-- Dot product of two sequences. -/
def dot (u v : List ℚ) : ℚ := (List.zipWith (fun x y => x * y) u v).sum

/-- Transpose of a matrix given as a list of rows. -/
def transposeM (A : List (List ℚ)) : List (List ℚ) :=
  (List.range (A.headD []).length).map (fun j => A.map (fun r => r.getD j 0))

/-- Matrix product of two matrices given as lists of rows. -/
def matMul (A B : List (List ℚ)) : List (List ℚ) :=
  A.map (fun r => (List.range ((B.headD []).length)).map (fun j =>
    dot r (B.map (fun row => row.getD j 0))))

/-- Determinant by Laplace expansion along the first row, with fuel equal to
the number of rows. -/
def detAux : ℕ → List (List ℚ) → ℚ
  | 0, _ => 1
  | _ + 1, [] => 1
  | fuel + 1, r :: rs =>
    ((List.range r.length).map (fun j =>
      (-1 : ℚ) ^ j * r.getD j 0 * detAux fuel (rs.map (fun row => row.eraseIdx j)))).sum

/-- Determinant of a square matrix given as a list of rows. -/
def detQ (A : List (List ℚ)) : ℚ := detAux A.length A

/-- Inverse of a square matrix via the adjugate (exact over `ℚ`). -/
def matInv (A : List (List ℚ)) : List (List ℚ) :=
  (List.range A.length).map (fun i => (List.range A.length).map (fun j =>
    (-1 : ℚ) ^ (i + j) * detQ ((A.eraseIdx j).map (fun r => r.eraseIdx i)) / detQ A))

/-- Modelled from the spec: the least-squares fitting cell ("Use
least-squares to compute betas") is left blank in the notebook; §4.5
specifies solving `min ‖Y − Xβ‖²`, §7 requires the stage to validate its
inputs and fail fast with `ShapeMismatch` on inconsistent timepoint counts
and `RankDeficiency` on a rank-deficient (collinear) design, rather than
silently returning a minimum-norm solution.  The full-rank solution is the
exact normal-equations solution `(XᵀX)⁻¹XᵀY` over `ℚ`. -/
def olsFit (X Y : List (List ℚ)) : Except GLMError (List (List ℚ)) :=
  if Y.length = X.length then
    if rankQ X < (X.headD []).length then Except.error GLMError.RankDeficiency
    else Except.ok (matMul (matInv (matMul (transposeM X) X)) (matMul (transposeM X) Y))
  else Except.error GLMError.ShapeMismatch

/-- Modelled from the spec: the contrast cell ("Apply contrast vectors to
betas") is left blank in the notebook; §4.5 specifies the contrast map
`cᵀ·β_interest`, one value per voxel: `beta` holds one row of voxel
coefficients per interest column. -/
def contrastMap (c : List ℚ) (beta : List (List ℚ)) (nVoxels : ℕ) : List ℚ :=
  (List.range nVoxels).map (fun v =>
    ((c.zip beta).map (fun p => p.1 * p.2.getD v 0)).sum)

/-- Shift every beta coefficient by the constant `K` (`β + K·1`). -/
def betaShift (K : ℚ) (beta : List (List ℚ)) : List (List ℚ) :=
  beta.map (fun row => row.map (fun x => x + K))

/-- Embeds `scipy.stats.rankdata` (default `method='average'`) as called by
`rank_percentile`: the rank of an entry is the number of strictly smaller
entries plus the average position among equal entries. -/
def rankdata (a : List ℚ) : List ℚ :=
  a.map (fun x =>
    ((a.countP (fun y => decide (y < x)) : ℚ)
      + ((a.countP (fun y => decide (y = x)) : ℚ) + 1) / 2))

/-- Embeds `rank_percentile(a) = rankdata(a) / len(a) * 100` from
homework-2. -/
def rank_percentile (a : List ℚ) : List ℚ :=
  (rankdata a).map (fun r => r / (a.length : ℚ) * 100)

/-! Shared helper lemmas -/

lemma polys_length (n d : ℕ) : (polys n d).length = d := by
  simp [polys]

lemma linspace_length (start stop : ℚ) (num : ℕ) :
    (linspace start stop num).length = num := by
  unfold linspace
  split <;> rw [List.length_map, List.length_range]

lemma eval_legendre_neg_one_pair (n : ℕ) :
    eval_legendre n (-1) = (-1) ^ n ∧ eval_legendre (n + 1) (-1) = (-1) ^ (n + 1) := by
  induction n with
  | zero => constructor <;> simp [eval_legendre]
  | succ k ih =>
    refine ⟨ih.2, ?_⟩
    show eval_legendre (k + 2) (-1) = (-1) ^ (k + 2)
    rw [eval_legendre, ih.1, ih.2]
    have hk : ((k : ℚ) + 2) ≠ 0 := by positivity
    field_simp
    ring

lemma eval_legendre_neg_one (n : ℕ) : eval_legendre n (-1) = (-1) ^ n :=
  (eval_legendre_neg_one_pair n).1

/-! C1 -/

/-- C1: the Polynomial Detrender cell loops `for n in np.arange(degree)`,
so for every timepoint count `N` it produces exactly `degree` columns
(Legendre degrees `0 … degree − 1`) — not the `degree + 1` columns
(degrees `0 … degree` inclusive) that the claim, and the cell's own
"4th-degree Legendre polynomials" description, call for. -/
theorem polys_column_count (N D : ℕ) : (polys N D).length = D :=
  polys_length N D

/-! C8 -/

/-- C8 (counterexample): invoked with `N = 1` (and the notebook's
`degree = 4`), the Polynomial Detrender does not fail: it returns the
numeric matrix `[[1], [-1], [1], [-1]]` (each Legendre polynomial evaluated
on the degenerate one-point grid `[-1]`), rather than an InvalidInput
error. -/
theorem polys_one_timepoint_value :
    polys 1 4 = [[1], [-1], [1], [-1]] := by
  have hg : linspace (-1) 1 1 = [-1] := by decide
  have hr : List.range 4 = [0, 1, 2, 3] := by decide
  simp only [polys, hg, hr, List.map_cons, List.map_nil]
  simp [eval_legendre_neg_one]
  norm_num

/-- C8 (amended): invoked with timepoint count `N = 1`, the Polynomial
Detrender neither fails nor produces NaN: `np.linspace(-1, 1, 1)`
degenerates to the single grid point `-1` and the cell returns the numeric
one-row matrix whose degree-`n` column is `[(-1)^n]`. -/
theorem polys_one_timepoint (degree : ℕ) :
    polys 1 degree = (List.range degree).map (fun n => [(-1 : ℚ) ^ n]) := by
  have hg : linspace (-1) 1 1 = [-1] := by decide
  unfold polys
  rw [hg]
  exact List.map_congr_left (fun n _ => by simp [eval_legendre_neg_one])

/-! C9 -/

/-- C9: the first-run boxcar construction depends only on the labels at
positions where the run index equals 0: any two `(stimuli, runs)` inputs
whose restrictions `stimuli[runs == 0]` coincide produce the same
regressor matrix, for every value of the (unused) `run_id` variable. -/
theorem boxcarsFirstRun_run0_only (rid1 rid2 : ℤ) (s1 s2 : List String)
    (r1 r2 : List ℤ) (h : restrictRun0 s1 r1 = restrictRun0 s2 r2) :
    boxcarsFirstRun rid1 s1 r1 = boxcarsFirstRun rid2 s2 r2 := by
  unfold boxcarsFirstRun
  rw [h]

/-- Witness for C9 at concrete inputs: the two label/run sequences differ
outside run 0 (and different `run_id` values are passed), yet the boxcar
matrices agree. -/
theorem boxcarsFirstRun_run0_only_witness :
    restrictRun0 ["face", "cat"] [0, 1] = restrictRun0 ["face", "shoe"] [0, 2] ∧
    boxcarsFirstRun 0 ["face", "cat"] [0, 1] = boxcarsFirstRun 5 ["face", "shoe"] [0, 2] :=
  ⟨by decide, boxcarsFirstRun_run0_only 0 5 ["face", "cat"] ["face", "shoe"] [0, 1] [0, 2] (by decide)⟩

lemma get?_eq_some_getD {α : Type _} (l : List α) (n : ℕ) (d : α) (h : n < l.length) :
    l.get? n = some (l.getD n d) := by
  induction l generalizing n with
  | nil => simp at h
  | cons a t ih =>
    cases n with
    | zero => rfl
    | succ m => exact ih m (by simpa using h)

lemma getD_map_of_lt {α β : Type _} (f : α → β) (l : List α) (n : ℕ) (d : β) (d0 : α)
    (h : n < l.length) : (l.map f).getD n d = f (l.getD n d0) := by
  induction l generalizing n with
  | nil => simp at h
  | cons a t ih =>
    cases n with
    | zero => rfl
    | succ m => exact ih m (by simpa using h)

lemma getD_range_of_lt (n t : ℕ) (h : t < n) (d : ℕ) : (List.range n).getD t d = t := by
  rw [List.getD_eq_getElem?_getD, List.getElem?_range h]
  rfl

lemma sum_indicator (l : String) (cs : List String) (h : cs.Nodup) :
    (cs.map (fun c => if l = c then (1 : ℚ) else 0)).sum = if l ∈ cs then 1 else 0 := by
  induction cs with
  | nil => simp
  | cons c t ih =>
    rw [List.nodup_cons] at h
    rcases eq_or_ne l c with rfl | hlc
    · simp [h.1, ih h.2]
    · simp [hlc, ih h.2]

lemma boxcarColumn_getD (labels : List String) (runTrs : ℕ) (c : String) (t : ℕ)
    (ht : t < runTrs) (htl : t < labels.length) :
    (boxcarColumn labels runTrs c).getD t 0
      = if labels.getD t "" = c then (1 : ℚ) else 0 := by
  unfold boxcarColumn
  rw [getD_map_of_lt _ _ t 0 0 (by simpa using ht), getD_range_of_lt _ _ ht,
    get?_eq_some_getD labels t "" htl]

/-! C3 -/

/-- C3: the Boxcar Builder, applied to the label sequence of one run of
length `runTrs` and a fixed category list, produces one column per category
(no dedicated rest column), each of length `runTrs`, whose entry at
timepoint `t` is 1 exactly when the run's label at `t` equals the category
string and 0 otherwise; a category absent from the run's labels yields a
legitimate all-zero column, not an error. -/
theorem boxcar_builder_spec (labels : List String) (cats : List String) (runTrs : ℕ)
    (hlen : labels.length = runTrs) :
    boxcars labels cats runTrs
      = cats.map (fun c => (List.range runTrs).map
          (fun t => if labels.getD t "" = c then (1 : ℚ) else 0)) ∧
    ∀ c ∈ cats, c ∉ labels →
      boxcarColumn labels runTrs c = List.replicate runTrs 0 := by
  constructor
  · unfold boxcars
    refine List.map_congr_left (fun c _ => ?_)
    unfold boxcarColumn
    refine List.map_congr_left (fun t ht => ?_)
    have ht2 : t < labels.length := by
      rw [hlen]
      exact List.mem_range.mp ht
    rw [get?_eq_some_getD labels t "" ht2]
  · intro c _ hcl
    unfold boxcarColumn
    have hz : ∀ t ∈ List.range runTrs,
        (match labels.get? t with
          | some l => if l = c then (1 : ℚ) else 0
          | none => 0) = (fun _ : ℕ => (0 : ℚ)) t := by
      intro t _
      cases hg : labels.get? t with
      | none => rfl
      | some l =>
        have hm : l ∈ labels := List.get?_mem hg
        have hne : l ≠ c := fun h => hcl (h ▸ hm)
        simp [hne]
    rw [List.map_congr_left hz]
    simp

/-- Witness for C3 at a concrete run: three timepoints, two categories, one
of which ("scissors") is absent from the run. -/
theorem boxcar_builder_spec_witness :
    (["face", "rest", "cat"] : List String).length = 3 ∧
    (boxcars ["face", "rest", "cat"] ["face", "cat", "scissors"] 3
        = (["face", "cat", "scissors"] : List String).map
            (fun c => (List.range 3).map
              (fun t => if (["face", "rest", "cat"] : List String).getD t "" = c
                then (1 : ℚ) else 0)) ∧
      ∀ c ∈ (["face", "cat", "scissors"] : List String),
        c ∉ (["face", "rest", "cat"] : List String) →
          boxcarColumn ["face", "rest", "cat"] 3 c = List.replicate 3 0) :=
  ⟨by decide, boxcar_builder_spec ["face", "rest", "cat"] ["face", "cat", "scissors"] 3 (by decide)⟩

/-! C6 -/

/-- C6: for every label sequence over the experiment's vocabulary (each
label is one of the 8 categories or "rest"), the sum across all boxcar
columns at any timepoint is at most 1 (categories are mutually exclusive),
and it is 0 exactly at the timepoints labeled "rest". -/
theorem boxcar_mutual_exclusivity (labels : List String) (runTrs t : ℕ)
    (hlen : labels.length = runTrs) (ht : t < runTrs)
    (hl : ∀ l ∈ labels, l ∈ categories ∨ l = "rest") :
    boxcarSum labels categories runTrs t ≤ 1 ∧
      (boxcarSum labels categories runTrs t = 0 ↔ labels.getD t "" = "rest") := by
  have htl : t < labels.length := by rw [hlen]; exact ht
  have hmem : labels.getD t "" ∈ labels :=
    List.get?_mem (get?_eq_some_getD labels t "" htl)
  have hsum : boxcarSum labels categories runTrs t
      = if labels.getD t "" ∈ categories then 1 else 0 := by
    unfold boxcarSum boxcars
    rw [List.map_map]
    have hpt : ∀ c ∈ categories,
        ((fun col : List ℚ => col.getD t 0) ∘ boxcarColumn labels runTrs) c
          = if labels.getD t "" = c then (1 : ℚ) else 0 := by
      intro c _
      exact boxcarColumn_getD labels runTrs c t ht htl
    rw [List.map_congr_left hpt, sum_indicator _ _ (by decide)]
  constructor
  · rw [hsum]
    split_ifs <;> norm_num
  · rw [hsum]
    split_ifs with hin
    · constructor
      · intro h10
        norm_num at h10
      · intro hrest
        rw [hrest] at hin
        exact absurd hin (by decide)
    · constructor
      · intro _
        rcases hl _ hmem with h | h
        · exact absurd h hin
        · exact h
      · intro _
        rfl

/-- Witness for C6 at a concrete run: two timepoints, the first labeled
"rest" (boxcar sum 0), checked at `t = 0`. -/
theorem boxcar_mutual_exclusivity_witness :
    (["rest", "face"] : List String).length = 2 ∧ 0 < 2 ∧
    (∀ l ∈ (["rest", "face"] : List String), l ∈ categories ∨ l = "rest") ∧
    (boxcarSum ["rest", "face"] categories 2 0 ≤ 1 ∧
      (boxcarSum ["rest", "face"] categories 2 0 = 0 ↔
        (["rest", "face"] : List String).getD 0 "" = "rest")) :=
  ⟨by decide, by decide, by decide,
    boxcar_mutual_exclusivity ["rest", "face"] 2 0 (by decide) (by decide) (by decide)⟩

lemma getD_vecAdd : ∀ (u v : List ℚ), u.length = v.length →
    ∀ k, (vecAdd u v).getD k 0 = u.getD k 0 + v.getD k 0
  | [], [], _, k => by simp [vecAdd]
  | [], _ :: _, h, _ => by simp at h
  | _ :: _, [], h, _ => by simp at h
  | a :: t, b :: s, h, 0 => by simp [vecAdd]
  | a :: t, b :: s, h, k + 1 => by
      have hts : t.length = s.length := by simpa using h
      simpa [vecAdd] using getD_vecAdd t s hts k

lemma sum_map_add {α : Type _} (l : List α) (f g : α → ℚ) :
    (l.map (fun x => f x + g x)).sum = (l.map f).sum + (l.map g).sum := by
  induction l with
  | nil => simp
  | cons a t ih =>
    simp [ih]
    ring

lemma vecAdd_map {α : Type _} (l : List α) (f g : α → ℚ) :
    vecAdd (l.map f) (l.map g) = l.map (fun x => f x + g x) := by
  induction l with
  | nil => rfl
  | cons a t ih =>
    simp only [List.map_cons]
    show (f a + g a) :: vecAdd (t.map f) (t.map g) = _
    rw [ih]

/-! C4 -/

/-- C4: the HRF Convolver (full linear convolution truncated to the input
length) satisfies superposition: for boxcar columns of equal length and any
kernel, convolving the pointwise sum equals the pointwise sum of the
convolutions. -/
theorem convolve_superposition (b1 b2 hrf : List ℚ) (hlen : b1.length = b2.length) :
    convolve (vecAdd b1 b2) hrf = vecAdd (convolve b1 hrf) (convolve b2 hrf) := by
  have hladd : (vecAdd b1 b2).length = b1.length := by
    simp [vecAdd, hlen]
  unfold convolve
  rw [hladd, ← hlen, vecAdd_map]
  refine List.map_congr_left (fun n _ => ?_)
  rw [← sum_map_add]
  refine congrArg List.sum (List.map_congr_left (fun k _ => ?_))
  rw [getD_vecAdd b1 b2 hlen k, add_mul]

/-- Witness for C4 at concrete boxcars and a concrete kernel. -/
theorem convolve_superposition_witness :
    ([1, 0, 1] : List ℚ).length = ([0, 2, 0] : List ℚ).length ∧
    convolve (vecAdd [1, 0, 1] [0, 2, 0]) [1, 1]
      = vecAdd (convolve [1, 0, 1] [1, 1]) (convolve [0, 2, 0] [1, 1]) :=
  ⟨by decide, convolve_superposition [1, 0, 1] [0, 2, 0] [1, 1] (by decide)⟩

lemma convolve_length (x h : List ℚ) : (convolve x h).length = x.length := by
  simp [convolve]

lemma boxcarColumn_length (labels : List String) (runTrs : ℕ) (c : String) :
    (boxcarColumn labels runTrs c).length = runTrs := by
  simp [boxcarColumn]

lemma polys_col_length (n d : ℕ) : ∀ col ∈ polys n d, col.length = n := by
  intro col hc
  unfold polys at hc
  rcases List.mem_map.mp hc with ⟨m, _, rfl⟩
  rw [List.length_map, linspace_length]

lemma sum_map_const_nat {α : Type _} (l : List α) (c : ℕ) :
    (l.map (fun _ => c)).sum = l.length * c := by
  induction l with
  | nil => simp
  | cons a t ih =>
    simp [ih]
    ring

/-! C5 -/

/-- C5: the assembled design matrix over `R` runs of per-run length `L`
with category list `cats` and detrend degree `D` has `R·L` rows (every
column has length `R·L`) and `cats.length + D` columns — the `cats.length`
convolved category columns plus the `D` columns the notebook's detrending
cell produces (degrees `0 … D−1`), not the `cats.length + D + 1` columns the
claim states. -/
theorem designMatrix_shape (sr : List (List String)) (cats : List String)
    (runTrs : ℕ) (hrf : List ℚ) (degree : ℕ) :
    (designMatrix sr cats runTrs hrf (sr.length * runTrs) degree).length
        = cats.length + degree ∧
      (designMatrix sr cats runTrs hrf (sr.length * runTrs) degree).all
        (fun col => col.length == sr.length * runTrs) = true := by
  constructor
  · unfold designMatrix
    rw [List.length_append, List.length_map, polys_length]
  · rw [List.all_eq_true]
    intro col hcol
    unfold designMatrix at hcol
    rw [List.mem_append] at hcol
    have hcl : col.length = sr.length * runTrs := by
      rcases hcol with hc | hc
      · rcases List.mem_map.mp hc with ⟨c, _, rfl⟩
        rw [List.length_flatten, List.map_map]
        have : ∀ labs ∈ sr,
            (List.length ∘ fun labs => convolve (boxcarColumn labs runTrs c) hrf) labs
              = (fun _ : List String => runTrs) labs := by
          intro labs _
          simp [convolve_length, boxcarColumn_length]
        rw [List.map_congr_left this, sum_map_const_nat]
      · exact polys_col_length _ _ col hc
    simp [hcl]

/-! C2 -/

/-- C2: for every design matrix `X` that is rank-deficient (its Gaussian
elimination rank is below its column count) and every response matrix `Y`
with the matching number of timepoints, the OLS Contrast Estimator signals
`RankDeficiency` instead of returning a fitted value. -/
theorem ols_rank_deficiency (X Y : List (List ℚ))
    (hshape : Y.length = X.length)
    (hrank : rankQ X < (X.headD []).length) :
    olsFit X Y = Except.error GLMError.RankDeficiency := by
  unfold olsFit
  rw [if_pos hshape, if_pos hrank]

/-- Witness for C2: a design matrix with two identical columns (rank 1 of
2 columns) is rejected with `RankDeficiency`. -/
theorem ols_rank_deficiency_witness :
    ([[1], [2], [3]] : List (List ℚ)).length
        = ([[1, 1], [2, 2], [3, 3]] : List (List ℚ)).length ∧
    rankQ [[1, 1], [2, 2], [3, 3]]
        < (([[1, 1], [2, 2], [3, 3]] : List (List ℚ)).headD []).length ∧
    olsFit [[1, 1], [2, 2], [3, 3]] [[1], [2], [3]]
        = Except.error GLMError.RankDeficiency :=
  ⟨by decide, by norm_num [rankQ, insertRow, allZero, leadIdx, elimAt],
    ols_rank_deficiency [[1, 1], [2, 2], [3, 3]] [[1], [2], [3]] (by decide)
      (by norm_num [rankQ, insertRow, allZero, leadIdx, elimAt])⟩

lemma sum_map_mul_const {α : Type _} (l : List α) (f : α → ℚ) (K : ℚ) :
    (l.map (fun x => f x * K)).sum = (l.map f).sum * K := by
  induction l with
  | nil => simp
  | cons a t ih =>
    simp [ih]
    ring

/-! C7 -/

/-- C7: for every contrast vector `c` whose entries sum to zero, every beta
matrix (one row of voxel coefficients per interest column), and every
constant `K`, the contrast map of the betas shifted by `K` on all interest
rows equals the contrast map of the unshifted betas. -/
theorem contrast_shift_invariance (c : List ℚ) (beta : List (List ℚ)) (K : ℚ)
    (nV : ℕ) (hsum : c.sum = 0) (hlen : c.length = beta.length)
    (hrow : ∀ row ∈ beta, nV ≤ row.length) :
    contrastMap c (betaShift K beta) nV = contrastMap c beta nV := by
  unfold contrastMap betaShift
  refine List.map_congr_left (fun v hv => ?_)
  have hvlt : v < nV := List.mem_range.mp hv
  rw [List.zip_map_right, List.map_map]
  have hcong : ∀ p ∈ c.zip beta,
      ((fun p : ℚ × List ℚ => p.1 * p.2.getD v 0)
          ∘ Prod.map id (List.map (fun x => x + K))) p
        = (fun p : ℚ × List ℚ => p.1 * p.2.getD v 0 + p.1 * K) p := by
    intro p hp
    have hmem : p.2 ∈ beta := (List.of_mem_zip hp).2
    have hlt : v < p.2.length := lt_of_lt_of_le hvlt (hrow _ hmem)
    simp only [Function.comp_apply, Prod.map_fst, Prod.map_snd, id_eq]
    rw [getD_map_of_lt _ _ v 0 0 hlt]
    ring
  rw [List.map_congr_left hcong, sum_map_add, sum_map_mul_const,
    List.map_fst_zip c beta (le_of_eq hlen), hsum]
  simp

/-- Witness for C7 at a concrete zero-sum contrast, concrete betas and
shift `K = 5`. -/
theorem contrast_shift_invariance_witness :
    List.sum ([1, -1] : List ℚ) = 0 ∧
    ([1, -1] : List ℚ).length = ([[2, 3], [4, 5]] : List (List ℚ)).length ∧
    (∀ row ∈ ([[2, 3], [4, 5]] : List (List ℚ)), 2 ≤ row.length) ∧
    contrastMap [1, -1] (betaShift 5 [[2, 3], [4, 5]]) 2
      = contrastMap [1, -1] [[2, 3], [4, 5]] 2 :=
  ⟨by norm_num, by decide, by simp,
    contrast_shift_invariance [1, -1] [[2, 3], [4, 5]] 5 2 (by norm_num) (by decide) (by simp)⟩

lemma countP_lt_of_mem {l : List ℚ} {p q : ℚ → Bool}
    (hpq : ∀ z ∈ l, p z = true → q z = true) {x : ℚ} (hx : x ∈ l)
    (hqx : q x = true) (hpx : p x = false) : l.countP p < l.countP q := by
  induction l with
  | nil => simp at hx
  | cons a t ih =>
    rw [List.countP_cons, List.countP_cons]
    have hmono : t.countP p ≤ t.countP q :=
      List.countP_mono_left (fun z hz h => hpq z (List.mem_cons_of_mem _ hz) h)
    rcases List.mem_cons.mp hx with rfl | hxt
    · rw [hpx, hqx]
      simpa using Nat.lt_succ_of_le hmono
    · have ih2 := ih (fun z hz => hpq z (List.mem_cons_of_mem _ hz)) hxt
      by_cases hpa : p a = true
      · rw [hpa, hpq a (List.mem_cons_self _ _) hpa]
        simpa using ih2
      · rw [Bool.not_eq_true] at hpa
        rw [hpa]
        cases hqa : q a <;> simp <;> omega

lemma countP_add_countP_neg (l : List ℚ) (p : ℚ → Bool) :
    l.countP p + l.countP (fun x => !(p x)) = l.length := by
  induction l with
  | nil => simp
  | cons a t ih =>
    rw [List.countP_cons, List.countP_cons]
    cases hpa : p a <;> simp [hpa] <;> omega

lemma countP_eq_one_of_nodup (a : List ℚ) (h : a.Nodup) (x : ℚ) (hx : x ∈ a) :
    a.countP (fun y => decide (y = x)) = 1 := by
  induction a with
  | nil => simp at hx
  | cons b t ih =>
    rw [List.nodup_cons] at h
    rw [List.countP_cons]
    rcases List.mem_cons.mp hx with rfl | hxt
    · have hz : t.countP (fun y => decide (y = x)) = 0 := by
        rw [List.countP_eq_zero]
        intro z hz
        simp only [decide_eq_true_eq]
        exact fun he => h.1 (he ▸ hz)
      simp [hz]
    · have hbx : ¬(b = x) := fun he => h.1 (he ▸ hxt)
      simp [hbx, ih h.2 hxt]

lemma exists_max_mem : ∀ (l : List ℚ), l ≠ [] → ∃ m, m ∈ l ∧ ∀ y ∈ l, y ≤ m
  | [], h => absurd rfl h
  | [a], _ => ⟨a, by simp, by simp⟩
  | a :: b :: t, _ => by
    obtain ⟨m, hm, hle⟩ := exists_max_mem (b :: t) (by simp)
    refine ⟨max a m, ?_, ?_⟩
    · rcases le_total a m with h | h
      · rw [max_eq_right h]
        exact List.mem_cons_of_mem _ hm
      · rw [max_eq_left h]
        exact List.mem_cons_self _ _
    · intro y hy
      rcases List.mem_cons.mp hy with rfl | hyt
      · exact le_max_left _ _
      · exact le_trans (hle y hyt) (le_max_right _ _)

lemma countP_lt_length_self (a : List ℚ) (x : ℚ) (hx : x ∈ a) :
    a.countP (fun y => decide (y < x)) < a.length := by
  rcases lt_or_eq_of_le (List.countP_le_length (fun y => decide (y < x))) with h | h
  · exact h
  · exfalso
    have := List.countP_eq_length.mp h x hx
    simp at this

/-! C10 -/

/-- C10: for every nonempty input with pairwise-distinct entries,
`rank_percentile` returns an array of the same length whose values lie in
`(0, 100]`, attains the value 100 (so the maximum is exactly 100), and is
strictly order-preserving. -/
theorem rank_percentile_spec (a : List ℚ) (hne : a ≠ []) (hd : a.Nodup) :
    (rank_percentile a).length = a.length ∧
    (∀ v ∈ rank_percentile a, 0 < v ∧ v ≤ 100) ∧
    100 ∈ rank_percentile a ∧
    (∀ i j : ℕ, i < a.length → j < a.length → a.getD i 0 < a.getD j 0 →
      (rank_percentile a).getD i 0 < (rank_percentile a).getD j 0) := by
  have hlen0 : 0 < a.length := List.length_pos.mpr hne
  have hlQ : (0 : ℚ) < (a.length : ℚ) := by exact_mod_cast hlen0
  have hRP : rank_percentile a
      = a.map (fun x => ((a.countP (fun y => decide (y < x)) : ℚ)
          + ((a.countP (fun y => decide (y = x)) : ℚ) + 1) / 2)
          / (a.length : ℚ) * 100) := by
    unfold rank_percentile rankdata
    rw [List.map_map]
    rfl
  have hval : ∀ x ∈ a,
      ((a.countP (fun y => decide (y < x)) : ℚ)
          + ((a.countP (fun y => decide (y = x)) : ℚ) + 1) / 2)
          / (a.length : ℚ) * 100
        = ((a.countP (fun y => decide (y < x)) : ℚ) + 1) / (a.length : ℚ) * 100 := by
    intro x hx
    rw [show (a.countP (fun y => decide (y = x)) : ℚ) = 1 by
      exact_mod_cast countP_eq_one_of_nodup a hd x hx]
    norm_num
  refine ⟨?_, ?_, ?_, ?_⟩
  · rw [hRP, List.length_map]
  · intro v hv
    rw [hRP] at hv
    rcases List.mem_map.mp hv with ⟨x, hx, rfl⟩
    rw [hval x hx]
    have hcx : a.countP (fun y => decide (y < x)) < a.length :=
      countP_lt_length_self a x hx
    constructor
    · have h1 : (0 : ℚ) < (a.countP (fun y => decide (y < x)) : ℚ) + 1 := by positivity
      exact mul_pos (div_pos h1 hlQ) (by norm_num)
    · have hle : ((a.countP (fun y => decide (y < x)) : ℚ) + 1) ≤ (a.length : ℚ) := by
        exact_mod_cast hcx
      have hdiv : ((a.countP (fun y => decide (y < x)) : ℚ) + 1) / (a.length : ℚ) ≤ 1 := by
        rw [div_le_one hlQ]
        exact hle
      have hfin := mul_le_mul_of_nonneg_right hdiv (by norm_num : (0 : ℚ) ≤ 100)
      simpa using hfin
  · obtain ⟨m, hm, hmax⟩ := exists_max_mem a hne
    rw [hRP]
    refine List.mem_map.mpr ⟨m, hm, ?_⟩
    rw [hval m hm]
    have hneg : a.countP (fun y => !(decide (y < m))) = 1 := by
      have hcongr : ∀ y ∈ a, ((!(decide (y < m))) = true ↔ (decide (y = m)) = true) := by
        intro y hy
        by_cases hym : y = m
        · subst hym
          simp
        · have hlt : y < m := lt_of_le_of_ne (hmax y hy) hym
          simp [hlt, hym]
      rw [List.countP_congr hcongr]
      exact countP_eq_one_of_nodup a hd m hm
    have hsum := countP_add_countP_neg a (fun y => decide (y < m))
    have hcm : a.countP (fun y => decide (y < m)) + 1 = a.length := by omega
    have hcmQ : (a.countP (fun y => decide (y < m)) : ℚ) + 1 = (a.length : ℚ) := by
      exact_mod_cast hcm
    rw [hcmQ, div_self (ne_of_gt hlQ), one_mul]
  · intro i j hi hj hij
    have hxi : a.getD i 0 ∈ a := List.get?_mem (get?_eq_some_getD a i 0 hi)
    have hxj : a.getD j 0 ∈ a := List.get?_mem (get?_eq_some_getD a j 0 hj)
    rw [hRP, getD_map_of_lt _ _ i 0 0 hi, getD_map_of_lt _ _ j 0 0 hj,
      hval _ hxi, hval _ hxj]
    have hcnt : a.countP (fun y => decide (y < a.getD i 0))
        < a.countP (fun y => decide (y < a.getD j 0)) := by
      refine countP_lt_of_mem ?_ hxi ?_ ?_
      · intro z _ hz
        exact decide_eq_true (lt_trans (of_decide_eq_true hz) hij)
      · exact decide_eq_true hij
      · exact decide_eq_false (lt_irrefl _)
    have hcQ : (a.countP (fun y => decide (y < a.getD i 0)) : ℚ) + 1
        < (a.countP (fun y => decide (y < a.getD j 0)) : ℚ) + 1 := by
      have : a.countP (fun y => decide (y < a.getD i 0)) + 1
          < a.countP (fun y => decide (y < a.getD j 0)) + 1 := by omega
      exact_mod_cast this
    exact mul_lt_mul_of_pos_right ((div_lt_div_iff_of_pos_right hlQ).mpr hcQ) (by norm_num)

/-- Witness for C10 at the concrete distinct input `[3, 1, 2]`. -/
theorem rank_percentile_spec_witness :
    ([3, 1, 2] : List ℚ) ≠ [] ∧ ([3, 1, 2] : List ℚ).Nodup ∧
    ((rank_percentile [3, 1, 2]).length = ([3, 1, 2] : List ℚ).length ∧
      (∀ v ∈ rank_percentile [3, 1, 2], 0 < v ∧ v ≤ 100) ∧
      100 ∈ rank_percentile [3, 1, 2] ∧
      (∀ i j : ℕ, i < ([3, 1, 2] : List ℚ).length → j < ([3, 1, 2] : List ℚ).length →
        ([3, 1, 2] : List ℚ).getD i 0 < ([3, 1, 2] : List ℚ).getD j 0 →
        (rank_percentile [3, 1, 2]).getD i 0 < (rank_percentile [3, 1, 2]).getD j 0)) :=
  ⟨by decide, by norm_num, rank_percentile_spec [3, 1, 2] (by decide) (by norm_num)⟩
